import Mathlib

/-!
Verification of the pancake-proxy core against its specification.

The Go source is shallowly embedded: Go maps whose iteration order the
program relies on are modelled as insertion-ordered association lists
(updating an existing key keeps its position, new keys are appended);
machine integers are `Nat` with explicit `% 2^32` where the source uses
`atomic.Uint32`; fallible operations return `Except`.
-/

namespace Pancake

/-! ## Association list helpers (model of Go maps, insertion ordered) -/

/-- Lookup in an insertion-ordered association list (Go map read `m[k]`). -/
def assocFind {α β : Type} [DecidableEq α] : List (α × β) → α → Option β
  | [], _ => none
  | (k, v) :: rest, key => if k = key then some v else assocFind rest key

/-- Write `m[k] = v` in a Go map: update in place if the key is present,
append the new key otherwise. -/
def assocPut {α β : Type} [DecidableEq α] : List (α × β) → α → β → List (α × β)
  | [], key, v => [(key, v)]
  | (k, w) :: rest, key, v =>
    if k = key then (k, v) :: rest else (k, w) :: assocPut rest key v

/-! ## Data model (src/proxy/servers.go, src/proxy/services.go)

`UpstreamConfig` is the value type of servers.go; `UpstreamServer` models
the heap object `upstreamServer` (the `sid` field stands for Go pointer
identity; `httpClient`, logger and reflection handles are omitted as they
play no role in the verified claims). -/

structure UpstreamConfig where
  address : String
  plaintext : Bool
  insecureSkipVerify : Bool
deriving DecidableEq, Repr

structure UpstreamServer where
  config : UpstreamConfig
  provider : String
  sid : Nat
deriving DecidableEq, Repr

instance : Inhabited UpstreamServer := ⟨⟨⟨"", false, false⟩, "", 0⟩⟩

/-- Model of `upstreamService`: the ordered server list and the value of the
`next atomic.Uint32` round-robin cursor. -/
structure UpstreamService where
  servers : List UpstreamServer
  next : Nat
deriving DecidableEq, Repr

/-- Model of `Proxy.services : map[string]*upstreamService`. -/
abbrev ServicesTable : Type := List (String × UpstreamService)

/-! ## findServer (src/proxy/proxy.go, lines 105-118) -/

/-- Size of the `atomic.Uint32` cursor value space. -/
def u32Mod : Nat := 4294967296

/-- Model of `Proxy.findServer`: looks the service up, returns `none` if it
is absent or its server list is empty, otherwise increments the cursor
(`service.next.Add(1)` wraps modulo `2^32`) and indexes
`servers[next % len(servers)]`. The mutated table is returned alongside. -/
def findServer (tbl : ServicesTable) (name : String) :
    Option UpstreamServer × ServicesTable :=
  match assocFind tbl name with
  | none => (none, tbl)
  | some svc =>
    if svc.servers.length = 0 then (none, tbl)
    else
      let nxt := (svc.next + 1) % u32Mod
      (svc.servers[nxt % svc.servers.length]?,
        assocPut tbl name ⟨svc.servers, nxt⟩)

/-- N sequential `findServer` calls on the same service, collecting the
returned servers in order. -/
def runFindServer (tbl : ServicesTable) (name : String) :
    Nat → List (Option UpstreamServer) × ServicesTable
  | 0 => ([], tbl)
  | n + 1 =>
    let step := findServer tbl name
    let rest := runFindServer step.2 name n
    (step.1 :: rest.1, rest.2)

/-! ## Request routing (src/proxy/proxy.go: ServeHTTP, getTargetService) -/

/-- Model of `strings.TrimPrefix(r.URL.Path, "/")`: drop one leading slash
if present. -/
def goTrimOneSlash : List Char → List Char
  | '/' :: rest => rest
  | s => s

/-- Model of `strings.SplitN(path, "/", 2)` restricted to what the caller
observes: `some (before, after)` at the first slash, `none` when the string
contains no slash (in which case `SplitN` returns a one-element slice and
`getTargetService` reports failure). -/
def splitFirstSlash : List Char → Option (List Char × List Char)
  | [] => none
  | c :: rest =>
    if c = '/' then some ([], rest)
    else
      match splitFirstSlash rest with
      | some (a, b) => some (c :: a, b)
      | none => none

/-- Model of `Proxy.getTargetService`: the first path segment after
stripping one leading slash, or failure when no slash remains. -/
def getTargetService (path : List Char) : Option (List Char) :=
  (splitFirstSlash (goTrimOneSlash path)).map (fun p => p.1)

/-- Outcome of the routing decisions at the top of `Proxy.ServeHTTP`:
non-POST requests get 405, requests whose path fails `getTargetService`
get 400 with no forwarding, the rest are dispatched with the parsed
service name. -/
inductive RouteOutcome where
  | methodNotAllowed
  | badRequest
  | routed (service : List Char)
deriving DecidableEq, Repr

/-- Model of the entry checks of `Proxy.ServeHTTP` (method test, then
`getTargetService`). -/
def serveHTTPRoute (method : String) (path : List Char) : RouteOutcome :=
  if method ≠ "POST" then .methodNotAllowed
  else
    match getTargetService path with
    | none => .badRequest
    | some svc => .routed svc

/-! ## Descriptor registry (src/reflection/resolver.go)

Protobuf descriptors are embedded structurally: a file has a path, a
placeholder flag, its top-level message declarations (each with its own
nested message declarations), its top-level extension declarations, and
its imports (which are file descriptors themselves, so the import graph —
acyclic in protobuf — becomes a forest). -/

structure ExtensionDecl where
  fullName : String
  message : String
  number : Nat
deriving DecidableEq, Repr

/-- A message declaration: its full name and its nested message
declarations. -/
inductive MessageDecl : Type where
  | mk (fullName : String) (nested : List MessageDecl)

def MessageDecl.fullName : MessageDecl → String
  | .mk n _ => n

def MessageDecl.nested : MessageDecl → List MessageDecl
  | .mk _ ns => ns

inductive FileDescriptor : Type where
  | mk (path : String) (placeholder : Bool) (messages : List MessageDecl)
      (extensions : List ExtensionDecl) (imports : List FileDescriptor)

def FileDescriptor.path : FileDescriptor → String
  | .mk p _ _ _ _ => p

def FileDescriptor.placeholder : FileDescriptor → Bool
  | .mk _ ph _ _ _ => ph

def FileDescriptor.messages : FileDescriptor → List MessageDecl
  | .mk _ _ ms _ _ => ms

def FileDescriptor.extensions : FileDescriptor → List ExtensionDecl
  | .mk _ _ _ es _ => es

def FileDescriptor.imports : FileDescriptor → List FileDescriptor
  | .mk _ _ _ _ is => is

/-! Full names of all message declarations of a file, nested included —
the descriptor names `protoregistry.Files.RegisterFile` indexes and
checks for conflicts. -/
mutual

def msgNames : MessageDecl → List String
  | .mk n nested => n :: msgNamesList nested

def msgNamesList : List MessageDecl → List String
  | [] => []
  | md :: rest => msgNames md ++ msgNamesList rest

end

/-- The descriptor full names a file registers into
`protoregistry.Files`: every message (nested included) and every
extension. (Enums and services are not modelled.) -/
def declaredNames (fd : FileDescriptor) : List String :=
  msgNamesList fd.messages ++ fd.extensions.map (fun e => e.fullName)

/-- Model of `protoregistry.Files.RegisterFile`'s descriptor-name
conflict detection: the new file declares a full name already declared by
some registered file. On conflict `RegisterFile` returns an error and
registers nothing; resolver.go discards that error. -/
def nameConflict (files : List (String × FileDescriptor))
    (fd : FileDescriptor) : Bool :=
  files.any
    (fun kv =>
      (declaredNames fd).any (fun n => (declaredNames kv.2).contains n))

/-- Inner map of `extensionMap`: field number to extension descriptor. -/
abbrev ExtInner : Type := List (Nat × ExtensionDecl)

/-- Model of `extensionMap`: containing-message full name to inner map.
`none` models a `nil` inner map (resolver.go stores `nil` when seeding a
message), which Go's `m[name] == nil` test cannot distinguish from an
absent key, while the two-value read `m[name]` with `ok` can. -/
abbrev ExtMap : Type := List (String × Option ExtInner)

structure Resolver where
  files : List (String × FileDescriptor)
  extMap : ExtMap

def emptyResolver : Resolver := ⟨[], []⟩

inductive ResolveErr where
  | notFound
deriving DecidableEq, Repr

/-- Go's one-value map read `cr.extensionMap[name]`: an absent key and a
`nil` stored value both read as `nil`. -/
def extLookupJoined (m : ExtMap) (k : String) : Option ExtInner :=
  match assocFind m k with
  | some v => v
  | none => none

/-- Model of the message-seeding loop of `registerFileLocked`:
`if cr.extensionMap[name] == nil { cr.extensionMap[name] = nil }`.
The loop walks `fd.Messages()`, which returns only the top-level
messages; nested messages are never seeded. -/
def seedMessage (m : ExtMap) (name : String) : ExtMap :=
  match extLookupJoined m name with
  | some _ => m
  | none => assocPut m name none

/-- Model of the extension loop of `registerFileLocked`. Note the source
reads the existence check at key `extension.FullName()` but stores the
freshly made map at key `extension.Message().FullName()`; in the non-nil
branch the map object found at `extension.FullName()` is mutated in place. -/
def registerExtension (m : ExtMap) (e : ExtensionDecl) : ExtMap :=
  match extLookupJoined m e.fullName with
  | none => assocPut m e.message (some [(e.number, e)])
  | some inner => assocPut m e.fullName (some (assocPut inner e.number e))

/-- The non-recursive part of `registerFileLocked`: attempt
`cr.files.RegisterFile(fd)` — which refuses the file (path-keyed map
unchanged) when its path is already registered or one of its descriptor
names conflicts with an already registered file, discarding the error —
then seed the extension index for each top-level message, then index each
extension. -/
def registerFileShallow (st : Resolver) (fd : FileDescriptor) : Resolver :=
  let files :=
    if (assocFind st.files fd.path).isSome || nameConflict st.files fd then
      st.files
    else st.files ++ [(fd.path, fd)]
  let m1 := (fd.messages.map MessageDecl.fullName).foldl seedMessage
    st.extMap
  let m2 := fd.extensions.foldl registerExtension m1
  ⟨files, m2⟩

/-! Model of `registerFileLocked` (with `registerImportsLocked` standing
for its import loop), preserving the source's depth-first order: the file
is registered shallowly, then each non-placeholder import is recursed
into; placeholder imports are skipped, not recursed into. -/
mutual

def registerFileLocked (st : Resolver) : FileDescriptor → Resolver
  | .mk p ph ms es imps =>
    registerImportsLocked (registerFileShallow st (.mk p ph ms es imps)) imps

def registerImportsLocked (st : Resolver) : List FileDescriptor → Resolver
  | [] => st
  | i :: rest =>
    registerImportsLocked
      (if i.placeholder then st else registerFileLocked st i) rest

end

/-- Model of `SimpleResolver.RegisterFiles`. -/
def RegisterFiles (st : Resolver) (fds : List FileDescriptor) : Resolver :=
  fds.foldl registerFileLocked st

/-- Model of `SimpleResolver.FindFileByPath` (via `protoregistry.Files`). -/
def FindFileByPath (st : Resolver) (p : String) :
    Except ResolveErr FileDescriptor :=
  match assocFind st.files p with
  | some fd => .ok fd
  | none => .error .notFound

/-- Model of `SimpleResolver.FindExtensionByNumber`: the chained map read
`cr.extensionMap[message][field]` with `ok` reporting. -/
def FindExtensionByNumber (st : Resolver) (message : String) (field : Nat) :
    Except ResolveErr ExtensionDecl :=
  match (extLookupJoined st.extMap message).bind
      (fun inner => assocFind inner field) with
  | some e => .ok e
  | none => .error .notFound

/-- Model of `SimpleResolver.GetExtensionsByMessage`: `NotFound` when the
outer key is absent, otherwise the numbers of the stored extensions in
iteration order (no sorting in the source). -/
def GetExtensionsByMessage (st : Resolver) (message : String) :
    Except ResolveErr (List Nat) :=
  match assocFind st.extMap message with
  | none => .error .notFound
  | some inner => .ok ((inner.getD []).map (fun p => p.2.number))

/-! The placeholder-skipping transitive import closure of a file: the file
itself plus, recursively, the closure of each non-placeholder import
(placeholder imports contribute nothing). Mirrors the recursion of
`registerFileLocked`. -/
mutual

def reachNP : FileDescriptor → List FileDescriptor
  | .mk p ph ms es imps => .mk p ph ms es imps :: reachNPImports imps

def reachNPImports : List FileDescriptor → List FileDescriptor
  | [] => []
  | i :: rest =>
    (if i.placeholder then [] else reachNP i) ++ reachNPImports rest

end

/-- Invariant of the registration walk: every entry of the path map is
either an original entry or a closure file keyed by its own path. -/
abbrev StOk (st0 : Resolver) (R : List FileDescriptor) (st : Resolver) :
    Prop :=
  ∀ kv ∈ st.files, kv ∈ st0.files ∨ (kv.2 ∈ R ∧ kv.1 = kv.2.path)

/-- No closure file declares a name already declared by a file registered
before the `RegisterFiles` call. -/
abbrev NamesFresh (st0 : Resolver) (R : List FileDescriptor) : Prop :=
  ∀ x ∈ R, ∀ kv ∈ st0.files, ∀ n ∈ declaredNames x,
    n ∉ declaredNames kv.2

/-- Closure files with different paths declare disjoint name sets. -/
abbrev PairwiseFresh (R : List FileDescriptor) : Prop :=
  ∀ x ∈ R, ∀ y ∈ R, x.path ≠ y.path → ∀ n ∈ declaredNames x,
    n ∉ declaredNames y

/-! ## gRPC-Web trailer frame (src/grpcweb/translate.go: Finish)

Header keys and values are embedded as `List Char`; the inputs considered
here are ASCII, so one character is one byte and byte length equals
character count. -/

/-- Model of `http.Header`, insertion ordered (see the file comment). -/
abbrev HeaderMap : Type := List (List Char × List (List Char))

/-- ASCII lowering of one character, as `strings.ToLower` acts on the
ASCII header keys considered here. -/
def lowerChar (c : Char) : Char :=
  if 65 ≤ c.toNat ∧ c.toNat ≤ 90 then Char.ofNat (c.toNat + 32) else c

/-- Model of `strings.ToLower` on an ASCII key. -/
def lowerL (s : List Char) : List Char := s.map lowerChar

/-- Remainder of `s` after an exact prefix `p`, or `none` when `p` is not
a prefix. -/
def dropPre : List Char → List Char → Option (List Char)
  | [], s => some s
  | _ :: _, [] => none
  | c :: p, d :: s => if c = d then dropPre p s else none

/-- Model of `strings.TrimPrefix s p`. -/
def goTrimPreL (s p : List Char) : List Char :=
  match dropPre p s with
  | some r => r
  | none => s

/-- Model of the trailer-collection loop of `Finish`: for every buffered
header, lowercase the key, skip it when it was already sent (compared
against the lowercased sent-key set) or when it is the `Trailer` header
itself, then apply `strings.TrimPrefix(key, http.TrailerPrefix)` — note
the source lowercases first, so the literal prefix `"Trailer:"` is
compared against an already-lowercased key — and store the value. -/
def finishTrailers (buffered : HeaderMap) (sentKeys : List (List Char)) :
    HeaderMap :=
  buffered.foldl
    (fun acc kv =>
      let key := lowerL kv.1
      if (sentKeys.map lowerL).contains key || key = "trailer".toList then
        acc
      else
        assocPut acc (goTrimPreL key "Trailer:".toList) kv.2)
    []

/-- Byte-order comparison of header keys, as `http.Header.Write` sorts
them. -/
def keyLt : List Char → List Char → Bool
  | [], [] => false
  | [], _ :: _ => true
  | _ :: _, [] => false
  | a :: as, b :: bs =>
    if a.toNat < b.toNat then true
    else if b.toNat < a.toNat then false
    else keyLt as bs

/-- Insertion step of the key-sorted serialization order. -/
def insertSorted (kv : List Char × List (List Char)) :
    HeaderMap → HeaderMap
  | [] => [kv]
  | h :: t => if keyLt h.1 kv.1 then h :: insertSorted kv t else kv :: h :: t

/-- Keys sorted ascending, as `http.Header.Write` emits them. -/
def sortHeaders (h : HeaderMap) : HeaderMap := h.foldr insertSorted []

/-- Model of `http.Header.Write`: one `Key: value\r\n` line per value,
keys sorted ascending. Value sanitisation (newline replacement) is not
modelled; the inputs used here contain none. -/
def writeHeaderLines (h : HeaderMap) : List Char :=
  (sortHeaders h).foldl
    (fun acc kv =>
      kv.2.foldl
        (fun a v => a ++ kv.1 ++ (':' :: ' ' :: []) ++ v ++
          ('\r' :: '\n' :: []))
        acc)
    []

/-- Big-endian 4-byte encoding (`binary.BigEndian.PutUint32`). -/
def be32 (n : Nat) : List Nat :=
  [n / 16777216 % 256, n / 65536 % 256, n / 256 % 256, n % 256]

/-- Model of `Finish`'s frame emission: one frame whose first byte is
`0b10000000`, then the 4-byte big-endian payload length, then the
serialized trailer block. The final `Flush` adds no bytes. -/
def finishFrame (buffered : HeaderMap) (sentKeys : List (List Char)) :
    List Nat :=
  let payload := writeHeaderLines (finishTrailers buffered sentKeys)
  128 :: be32 payload.length ++ payload.map Char.toNat

/-! ## Base64 response writer (src/utils/http.go) -/

/-- Character of the standard base64 alphabet (shared by `StdEncoding` and
`RawStdEncoding`). -/
def b64Char (n : Nat) : Char :=
  ("ABCDEFGHIJKLMNOPQRSTUVWXYZabcdefghijklmnopqrstuvwxyz0123456789+/".toList
    ).getD n 'A'

/-- Encode all complete 3-byte groups, returning the emitted characters and
the pending remainder (what `base64.NewEncoder` buffers). -/
def b64Groups : List Nat → List Char × List Nat
  | b0 :: b1 :: b2 :: rest =>
    let r := b64Groups rest
    ([b64Char (b0 / 4), b64Char (b0 % 4 * 16 + b1 / 16),
      b64Char (b1 % 16 * 4 + b2 / 64), b64Char (b2 % 64)] ++ r.1, r.2)
  | rest => ([], rest)

/-- Encoding of the final partial group on `Close`: `pad` selects between
`StdEncoding` (padded with `=`) and `RawStdEncoding` (unpadded). -/
def b64Final (pad : Bool) : List Nat → List Char
  | [] => []
  | [b0] =>
    [b64Char (b0 / 4), b64Char (b0 % 4 * 16)] ++
      (if pad then ['=', '='] else [])
  | [b0, b1] =>
    [b64Char (b0 / 4), b64Char (b0 % 4 * 16 + b1 / 16),
      b64Char (b1 % 16 * 4)] ++ (if pad then ['='] else [])
  | _ :: _ :: _ :: _ => []

/-- State of `base64ResponseWriter`: the bytes buffered by the current
encoder and everything written to the inner response writer so far. -/
structure B64Writer where
  pending : List Nat
  out : List Char
deriving DecidableEq, Repr

def b64WriterInit : B64Writer := ⟨[], []⟩

/-- Model of `base64ResponseWriter.Write`: feed the current encoder, which
emits complete 3-byte groups and buffers the remainder. -/
def b64Write (w : B64Writer) (data : List Nat) : B64Writer :=
  let r := b64Groups (w.pending ++ data)
  ⟨r.2, w.out ++ r.1⟩

/-- Model of `base64ResponseWriter.Flush`: `currentEncoder.Close()` — which
for the `base64.RawStdEncoding` encoder built by the source emits the final
partial group without padding — followed by installing a fresh encoder. -/
def b64Flush (w : B64Writer) : B64Writer :=
  ⟨[], w.out ++ b64Final false w.pending⟩

/-- Full standard base64 (`base64.StdEncoding`) of a byte string, for
comparison: complete groups plus a padded final group. -/
def b64StdEncode (data : List Nat) : List Char :=
  let r := b64Groups data
  r.1 ++ b64Final true r.2

/-! ## ReplaceServers (src/proxy/servers.go, lines 171-204) -/

/-- Model of building `shouldBuildConfigs`: every new config keyed to
`true` (duplicates collapse onto the first occurrence). -/
def initFlags (cs : List UpstreamConfig) : List (UpstreamConfig × Bool) :=
  cs.foldl (fun m c => assocPut m c true) []

/-- Model of the first loop of `ReplaceServers`, server-list output: old
servers whose config is a key of `shouldBuildConfigs` are appended to the
new list; the rest are cleaned up and dropped. (The single Go loop both
builds `newServers` and clears flags; it is split here into its two
outputs, `keptServers` and `keptFlags`, which walk the same iteration.) -/
def keptServers :
    List UpstreamServer → List (UpstreamConfig × Bool) → List UpstreamServer
  | [], _ => []
  | s :: rest, m =>
    if (assocFind m s.config).isSome then
      s :: keptServers rest (assocPut m s.config false)
    else
      keptServers rest m

/-- Model of the first loop of `ReplaceServers`, flag-map output: the flag
of every config matched by a kept old server is cleared. -/
def keptFlags :
    List UpstreamServer → List (UpstreamConfig × Bool) →
      List (UpstreamConfig × Bool)
  | [], m => m
  | s :: rest, m =>
    if (assocFind m s.config).isSome then
      keptFlags rest (assocPut m s.config false)
    else
      keptFlags rest m

/-- Model of the second loop of `ReplaceServers`: a fresh upstream (fresh
`sid`s drawn sequentially) for every config whose flag is still set, in map
iteration order (modelled as insertion order). -/
def buildPass (provider : String) :
    List (UpstreamConfig × Bool) → Nat → List UpstreamServer
  | [], _ => []
  | (c, b) :: rest, fid =>
    if b then ⟨c, provider, fid⟩ :: buildPass provider rest (fid + 1)
    else buildPass provider rest fid

/-- Model of `Proxy.ReplaceServers` restricted to one provider's slot
(`p.servers[provider]`): the kept old servers followed by the newly built
ones. -/
def ReplaceServers (old : List UpstreamServer) (provider : String)
    (cs : List UpstreamConfig) (fresh : Nat) : List UpstreamServer :=
  keptServers old (initFlags cs) ++
    buildPass provider (keptFlags old (initFlags cs)) fresh

/-! ## Reflection ListServices (src/proxy/reflection.go, lines 155-171) -/

def reflectionV1Service : String := "grpc.reflection.v1.ServerReflection"

def reflectionV1alphaService : String :=
  "grpc.reflection.v1alpha.ServerReflection"

/-- Model of `reflectionHandler.reflectionListServices`: every routing-table
service name except the two reflection service names. -/
def reflectionListServices (tbl : ServicesTable) : List String :=
  tbl.foldl
    (fun acc kv =>
      if kv.1 == reflectionV1Service || kv.1 == reflectionV1alphaService then
        acc
      else
        acc ++ [kv.1])
    []

/-! ## UpdateServices (src/proxy/services.go, lines 36-119) -/

/-- Model of the scrub loop of `UpdateServices`: drop every server of the
given provider from every service's list. -/
def scrubProvider (tbl : ServicesTable) (provider : String) : ServicesTable :=
  tbl.map
    (fun kv =>
      (kv.1, ⟨kv.2.servers.filter (fun s => s.provider != provider),
        kv.2.next⟩))

/-- Model of one `service.servers = append(...)` publication: create the
service entry if absent, then append the server. -/
def addServerToService (tbl : ServicesTable) (name : String)
    (srv : UpstreamServer) : ServicesTable :=
  match assocFind tbl name with
  | some svc => assocPut tbl name ⟨svc.servers ++ [srv], svc.next⟩
  | none => tbl ++ [(name, ⟨[srv], 0⟩)]

/-- Model of `Proxy.UpdateServices` for one provider. `outcome u` is the
service list obtained from upstream `u`'s reflection client, or `none`
when creating the client or `ListServices` failed — in which case
`results[i]` keeps its zero value and publishes nothing. Descriptor
registration (which touches only the resolver) is not represented in the
routing table result. -/
def UpdateServices (tbl : ServicesTable) (provider : String)
    (upstreams : List UpstreamServer)
    (outcome : UpstreamServer → Option (List String)) : ServicesTable :=
  let results := upstreams.map (fun u => (outcome u).map (fun ss => (u, ss)))
  results.foldl
    (fun t r =>
      match r with
      | none => t
      | some us => us.2.foldl (fun t2 n => addServerToService t2 n us.1) t)
    (scrubProvider tbl provider)

/-! ## Concrete instances used by witnesses and counterexamples -/

def extEx1 : ExtensionDecl := ⟨"pkg.e1", "pkg.M", 1⟩

def extEx2 : ExtensionDecl := ⟨"pkg.e2", "pkg.M", 2⟩

/-- A file declaring one message with two extension fields of it. -/
def fileExTwoExts : FileDescriptor :=
  .mk "a.proto" false [.mk "pkg.M" []] [extEx1, extEx2] []

def resolverExTwoExts : Resolver :=
  RegisterFiles emptyResolver [fileExTwoExts]

/-- A file declaring a top-level message with a nested message. -/
def fileExNested : FileDescriptor :=
  .mk "n.proto" false [.mk "pkg.Outer" [.mk "pkg.Outer.Inner" []]] [] []

def cfgExA : UpstreamConfig := ⟨"a.example:443", false, false⟩

def cfgExB : UpstreamConfig := ⟨"b.example:443", false, false⟩

def srvExA : UpstreamServer := ⟨cfgExA, "p", 0⟩

def srvExB : UpstreamServer := ⟨cfgExB, "p", 1⟩

def srvExC : UpstreamServer := ⟨⟨"c.example:443", false, false⟩, "p", 2⟩

/-- A routing table whose round-robin cursor is two steps before the
`uint32` wrap-around. -/
def wrapTbl : ServicesTable :=
  [("svc.X", ⟨[srvExA, srvExB, srvExC], 4294967294⟩)]

/-! ## Helper lemmas on the association-list map model -/

theorem assocFind_append_left {α β : Type} [DecidableEq α]
    (l l2 : List (α × β)) (k : α) (h : (assocFind l k).isSome) :
    assocFind (l ++ l2) k = assocFind l k := by
  induction l with
  | nil => simp [assocFind] at h
  | cons kv rest ih =>
    simp only [List.cons_append, assocFind]
    by_cases hk : kv.1 = k
    · simp [assocFind, hk] at *
    · simp only [assocFind, hk, if_false] at h ⊢
      exact ih h

theorem assocFind_append_self {α β : Type} [DecidableEq α]
    (l : List (α × β)) (k : α) (v : β) :
    (assocFind (l ++ [(k, v)]) k).isSome := by
  induction l with
  | nil => simp [assocFind]
  | cons kv rest ih =>
    simp only [List.cons_append, assocFind]
    by_cases hk : kv.1 = k <;> simp [hk, ih]

theorem assocFind_put_self {α β : Type} [DecidableEq α]
    (m : List (α × β)) (k : α) (v : β) :
    assocFind (assocPut m k v) k = some v := by
  induction m with
  | nil => simp [assocPut, assocFind]
  | cons kv rest ih =>
    simp only [assocPut]
    by_cases hk : kv.1 = k <;> simp [assocFind, hk, ih]

theorem assocFind_put_ne {α β : Type} [DecidableEq α]
    (m : List (α × β)) (k k' : α) (v : β) (h : k' ≠ k) :
    assocFind (assocPut m k v) k' = assocFind m k' := by
  induction m with
  | nil =>
    simp only [assocPut, assocFind, if_neg (Ne.symm h)]
  | cons kv rest ih =>
    simp only [assocPut]
    by_cases hk : kv.1 = k
    · subst hk
      simp only [if_pos rfl, assocFind, if_neg (Ne.symm h)]
    · simp only [if_neg hk, assocFind]
      by_cases hk' : kv.1 = k' <;> simp [hk', ih]

theorem assocFind_put_isSome {α β : Type} [DecidableEq α]
    (m : List (α × β)) (k k' : α) (v : β)
    (h : (assocFind m k').isSome) :
    (assocFind (assocPut m k v) k').isSome := by
  by_cases hk : k' = k
  · subst hk
    simp [assocFind_put_self]
  · rw [assocFind_put_ne m k k' v hk]
    exact h

/-! ## C9: self-hiding reflection ListServices -/

theorem mem_reflectionListServices (tbl : ServicesTable) (n : String) :
    n ∈ reflectionListServices tbl ↔
      n ∈ tbl.map Prod.fst ∧ n ≠ reflectionV1Service ∧
        n ≠ reflectionV1alphaService := by
  have go : ∀ (t : ServicesTable) (acc : List String),
      n ∈ t.foldl
          (fun acc kv =>
            if kv.1 == reflectionV1Service ||
                kv.1 == reflectionV1alphaService then
              acc
            else acc ++ [kv.1])
          acc ↔
        n ∈ acc ∨ (n ∈ t.map Prod.fst ∧ n ≠ reflectionV1Service ∧
          n ≠ reflectionV1alphaService) := by
    intro t
    induction t with
    | nil => simp
    | cons kv rest ih =>
      intro acc
      simp only [List.foldl_cons, List.map_cons]
      by_cases h :
          (kv.1 == reflectionV1Service ||
            kv.1 == reflectionV1alphaService) = true
      · rw [if_pos h, ih]
        simp only [Bool.or_eq_true, beq_iff_eq] at h
        simp only [List.mem_cons]
        constructor
        · rintro (ha | ⟨hm, h1, h2⟩)
          · exact Or.inl ha
          · exact Or.inr ⟨Or.inr hm, h1, h2⟩
        · rintro (ha | ⟨heq | hm, h1, h2⟩)
          · exact Or.inl ha
          · cases h with
            | inl hv => exact absurd (heq.trans hv) h1
            | inr hv => exact absurd (heq.trans hv) h2
          · exact Or.inr ⟨hm, h1, h2⟩
      · rw [if_neg h, ih]
        simp only [Bool.or_eq_true, beq_iff_eq, not_or] at h
        simp only [List.mem_append, List.mem_cons, List.not_mem_nil,
          or_false]
        constructor
        · rintro ((ha | hn) | ⟨hm, h1, h2⟩)
          · exact Or.inl ha
          · exact Or.inr ⟨Or.inl hn,
              fun hh => h.1 (hn.symm.trans hh),
              fun hh => h.2 (hn.symm.trans hh)⟩
          · exact Or.inr ⟨Or.inr hm, h1, h2⟩
        · rintro (ha | ⟨heq | hm, h1, h2⟩)
          · exact Or.inl (Or.inl ha)
          · exact Or.inl (Or.inr heq)
          · exact Or.inr ⟨hm, h1, h2⟩
  have := go tbl []
  simpa [reflectionListServices] using this

/-- C9: for every state of the routing table, `reflectionListServices`
never returns either reflection service name, and returns every other
service name present in the table. -/
theorem listServices_hides_reflection_services (tbl : ServicesTable) :
    reflectionV1Service ∉ reflectionListServices tbl ∧
    reflectionV1alphaService ∉ reflectionListServices tbl ∧
    ∀ name svc, (name, svc) ∈ tbl → name ≠ reflectionV1Service →
      name ≠ reflectionV1alphaService →
      name ∈ reflectionListServices tbl := by
  refine ⟨?_, ?_, ?_⟩
  · intro h
    exact ((mem_reflectionListServices tbl _).mp h).2.1 rfl
  · intro h
    exact ((mem_reflectionListServices tbl _).mp h).2.2 rfl
  · intro name svc hmem h1 h2
    exact (mem_reflectionListServices tbl name).mpr
      ⟨List.mem_map_of_mem Prod.fst hmem, h1, h2⟩

/-- Witness for C9 at a concrete table containing a reflection name and an
ordinary name. -/
theorem listServices_hides_reflection_services_witness :
    "svc.A" ∈ reflectionListServices
      [(reflectionV1Service, ⟨[], 0⟩), ("svc.A", ⟨[], 0⟩)] :=
  (listServices_hides_reflection_services
      [(reflectionV1Service, ⟨[], 0⟩), ("svc.A", ⟨[], 0⟩)]).2.2
    "svc.A" ⟨[], 0⟩ (by simp) (by decide) (by decide)

/-! ## C2: method and path checks of ServeHTTP -/

theorem splitFirstSlash_eq_none (s : List Char) (h : '/' ∉ s) :
    splitFirstSlash s = none := by
  induction s with
  | nil => rfl
  | cons c rest ih =>
    simp only [List.mem_cons, not_or] at h
    have hc : ¬c = '/' := Ne.symm h.1
    simp only [splitFirstSlash, if_neg hc, ih h.2]

theorem splitFirstSlash_seg (seg rest : List Char) (h : '/' ∉ seg) :
    splitFirstSlash (seg ++ '/' :: rest) = some (seg, rest) := by
  induction seg with
  | nil => simp [splitFirstSlash]
  | cons c cs ih =>
    simp only [List.mem_cons, not_or] at h
    have hc : ¬c = '/' := Ne.symm h.1
    simp only [List.cons_append, splitFirstSlash, if_neg hc,
      List.append_eq, ih h.2]

/-- C2 (amended): `ServeHTTP` accepts only POST (anything else gets 405);
for a POST request whose path has no `/` left after stripping one leading
`/` the answer is 400 and nothing is forwarded; for a path that still
contains a `/` the request is routed and the service name is the segment
before the first remaining `/`. -/
theorem serveHTTP_method_and_path_checks (method : String)
    (path : List Char) :
    (method ≠ "POST" → serveHTTPRoute method path = .methodNotAllowed) ∧
    ('/' ∉ goTrimOneSlash path → serveHTTPRoute "POST" path = .badRequest) ∧
    (∀ seg rest, goTrimOneSlash path = seg ++ '/' :: rest → '/' ∉ seg →
      serveHTTPRoute "POST" path = .routed seg) := by
  refine ⟨?_, ?_, ?_⟩
  · intro h
    simp [serveHTTPRoute, h]
  · intro h
    simp [serveHTTPRoute, getTargetService, splitFirstSlash_eq_none _ h]
  · intro seg rest hsplit hseg
    simp [serveHTTPRoute, getTargetService, hsplit,
      splitFirstSlash_seg seg rest hseg]

/-- Witness for C2 at concrete requests: a GET is rejected with 405, a
slashless POST path gets 400, and `/svc.A/Ping` routes to `svc.A`. -/
theorem serveHTTP_method_and_path_checks_witness :
    serveHTTPRoute "GET" ['/', 'a', '/', 'b'] = .methodNotAllowed ∧
    serveHTTPRoute "POST" ['/', 'a'] = .badRequest ∧
    serveHTTPRoute "POST" ['/', 'a', '/', 'b'] = .routed ['a'] :=
  ⟨(serveHTTP_method_and_path_checks "GET" ['/', 'a', '/', 'b']).1
      (by decide),
    (serveHTTP_method_and_path_checks "POST" ['/', 'a']).2.1 (by decide),
    (serveHTTP_method_and_path_checks "POST" ['/', 'a', '/', 'b']).2.2
      ['a'] ['b'] (by decide) (by decide)⟩

/-- C2 counterexample: the path `/a/b/c` has two slashes left after
stripping the leading one — not "exactly one" — yet `ServeHTTP` does not
answer 400: it routes the request to service `a`. -/
theorem serveHTTP_routes_multi_slash_path :
    serveHTTPRoute "POST" ['/', 'a', '/', 'b', '/', 'c'] = .routed ['a'] ∧
    (goTrimOneSlash ['/', 'a', '/', 'b', '/', 'c']).count '/' = 2 ∧
    RouteOutcome.routed ['a'] ≠ .badRequest := by
  decide

/-! ## C1 counterexample, C4, C5 counterexample, C6, C7, C8 counterexample:
closed evaluations of the models -/

/-- C1 counterexample: with three servers and the 32-bit cursor two steps
before its wrap-around, three sequential `findServer` calls return the
first server twice and the third server never, although
`⌊3/3⌋ = ⌈3/3⌉ = 1`: the wrapped cursor values `2^32-1, 0, 1` do not have
consecutive residues modulo 3 (`2^32 ≡ 1 (mod 3)`), so round-robin
fairness fails across the wrap. -/
theorem findServer_unfair_at_cursor_wrap :
    (runFindServer wrapTbl "svc.X" 3).1.count (some srvExA) = 2 ∧
    (runFindServer wrapTbl "svc.X" 3).1.count (some srvExC) = 0 ∧
    (3 : Nat) / 3 = 1 ∧ ((3 : Nat) + 3 - 1) / 3 = 1 ∧ (2 : Nat) ≠ 1 ∧
    (0 : Nat) ≠ 1 := by
  decide

/-- C4 (code bug): registering a single file that declares two extensions
of the same containing message `pkg.M` loses the first one. The existence
check of `registerFileLocked` reads key `extension.FullName()` while the
fresh inner map is stored at key `extension.Message().FullName()`, so
processing the second extension replaces the whole inner map and
`FindExtensionByNumber("pkg.M", 1)` returns NotFound even though extension
`pkg.e1` with number 1 and containing message `pkg.M` was registered. -/
theorem findExtensionByNumber_second_extension_evicts_first :
    FindExtensionByNumber resolverExTwoExts "pkg.M" 1 =
      .error .notFound ∧
    FindExtensionByNumber resolverExTwoExts "pkg.M" 2 = .ok extEx2 ∧
    extEx1.message = "pkg.M" ∧ extEx1.number = 1 ∧
    extEx1 ∈ fileExTwoExts.extensions := by
  refine ⟨rfl, rfl, rfl, rfl, ?_⟩
  show extEx1 ∈ [extEx1, extEx2]
  exact List.mem_cons_self _ _

/-- C5 counterexample, two divergences from the claim. (a) For the
two-extension file the registered extension numbers of `pkg.M` are 1 and
2, so the claim expects the sorted `[1, 2]`; the code returns `[2]`
because extension registration evicted number 1. (b) For a registered
file declaring a nested message, the query on the nested message's full
name returns NotFound instead of the empty list the claim requires,
because the seeding loop walks only `fd.Messages()` — the top-level
messages — and never seeds nested declarations. -/
theorem getExtensionsByMessage_incomplete_or_notFound :
    (GetExtensionsByMessage resolverExTwoExts "pkg.M" = .ok [2] ∧
      ([2] : List Nat) ≠ [1, 2]) ∧
    (GetExtensionsByMessage (RegisterFiles emptyResolver [fileExNested])
        "pkg.Outer.Inner" = .error .notFound ∧
      "pkg.Outer.Inner" ∈ msgNamesList fileExNested.messages ∧
      (FindFileByPath (RegisterFiles emptyResolver [fileExNested])
        "n.proto").isOk = true) :=
  ⟨⟨rfl, by decide⟩, ⟨rfl, by decide, rfl⟩⟩

/-- C6 (code bug): `Finish` lowercases a buffered header key before
applying `strings.TrimPrefix(key, "Trailer:")`, so the prefix comparison
(case-sensitive, capital T) never matches and the `Trailer:` key prefix is
never stripped: the buffered header `Trailer:X-Extra` is emitted in the
trailer frame under the key `trailer:x-extra` instead of `x-extra`. The
frame structure itself is as specified: first byte `0x80`, 4-byte
big-endian payload length, then the serialized header block. -/
theorem finish_frame_keeps_trailer_key_unstripped :
    finishTrailers [("Trailer:X-Extra".toList, ["1".toList])] [] =
      [("trailer:x-extra".toList, ["1".toList])] ∧
    finishFrame [("Trailer:X-Extra".toList, ["1".toList])] [] =
      128 :: be32 20 ++ ("trailer:x-extra: 1\r\n".toList.map Char.toNat) ∧
    goTrimPreL "trailer:x-extra".toList "Trailer:".toList =
      "trailer:x-extra".toList ∧
    "trailer:x-extra".toList ≠ "x-extra".toList := by
  refine ⟨by decide, by decide, by decide, by decide⟩

/-- C7 (code bug): the response writer built by `Base64ResponseWriter`
uses `base64.RawStdEncoding`, so flushing after writing the single byte
`0x00` emits the unpadded `"AA"`, while the standard base64 encoding the
claim (and the function's own doc comment, which names
`base64.StdEncoding`) promises is the padded `"AA=="`. -/
theorem base64Writer_flush_emits_unpadded_output :
    (b64Flush (b64Write b64WriterInit [0])).out = ['A', 'A'] ∧
    b64StdEncode [0] = ['A', 'A', '=', '='] ∧
    (['A', 'A'] : List Char) ≠ ['A', 'A', '=', '='] :=
  ⟨rfl, rfl, by decide⟩

/-- C8 counterexample: with one existing upstream for config A and the new
config list `[B, A]`, the resulting slot is `[A-upstream, B-upstream]` —
kept upstreams first — and not `[B, A]` as the new-configs order would
dictate. -/
theorem replaceServers_order_ignores_configs_order :
    (ReplaceServers [srvExA] "p" [cfgExB, cfgExA] 1).map
        (fun s => s.config) = [cfgExA, cfgExB] ∧
    ([cfgExA, cfgExB] : List UpstreamConfig) ≠ [cfgExB, cfgExA] :=
  ⟨rfl, by decide⟩

/-! ## C3: transitive closure of registration -/

theorem registerFileShallow_files_cases (st : Resolver)
    (fd : FileDescriptor) :
    (registerFileShallow st fd).files = st.files ∨
      (registerFileShallow st fd).files = st.files ++ [(fd.path, fd)] := by
  unfold registerFileShallow
  by_cases hp : ((assocFind st.files fd.path).isSome ||
      nameConflict st.files fd) = true
  · rw [if_pos hp]
    exact Or.inl rfl
  · rw [if_neg hp]
    exact Or.inr rfl

theorem registerFileShallow_files_mono (st : Resolver) (fd : FileDescriptor)
    (p : String) (h : (assocFind st.files p).isSome) :
    (assocFind (registerFileShallow st fd).files p).isSome := by
  rcases registerFileShallow_files_cases st fd with hc | hc
  · rw [hc]
    exact h
  · rw [hc, assocFind_append_left st.files [(fd.path, fd)] p h]
    exact h

mutual

theorem registerFileLocked_files_mono (st : Resolver) (fd : FileDescriptor)
    (p : String) (h : (assocFind st.files p).isSome) :
    (assocFind (registerFileLocked st fd).files p).isSome := by
  cases fd with
  | mk fp ph ms es imps =>
    rw [registerFileLocked]
    exact registerImportsLocked_files_mono _ imps p
      (registerFileShallow_files_mono st _ p h)

theorem registerImportsLocked_files_mono (st : Resolver)
    (l : List FileDescriptor) (p : String)
    (h : (assocFind st.files p).isSome) :
    (assocFind (registerImportsLocked st l).files p).isSome := by
  cases l with
  | nil => rw [registerImportsLocked]; exact h
  | cons i rest =>
    rw [registerImportsLocked]
    by_cases hp : i.placeholder = true
    · simp only [hp, if_true]
      exact registerImportsLocked_files_mono st rest p h
    · simp only [hp, if_false]
      exact registerImportsLocked_files_mono _ rest p
        (registerFileLocked_files_mono st i p h)

end

theorem mem_keys_isSome {α β : Type} [DecidableEq α]
    (m : List (α × β)) (kv : α × β) (h : kv ∈ m) :
    (assocFind m kv.1).isSome := by
  induction m with
  | nil => cases h
  | cons hd rest ih =>
    obtain ⟨k1, v1⟩ := hd
    by_cases hk : k1 = kv.1
    · simp [assocFind, hk]
    · simp only [assocFind, if_neg hk]
      rcases List.mem_cons.mp h with heq | hm
      · exact absurd (congrArg Prod.fst heq.symm) hk
      · exact ih hm

theorem self_mem_reachNP (fd : FileDescriptor) : fd ∈ reachNP fd := by
  cases fd with
  | mk p ph ms es imps =>
    rw [reachNP]
    exact List.mem_cons_self _ _

theorem reachNPImports_subset_reachNP (fd : FileDescriptor)
    (x : FileDescriptor) (hx : x ∈ reachNPImports fd.imports) :
    x ∈ reachNP fd := by
  cases fd with
  | mk p ph ms es imps =>
    rw [reachNP]
    exact List.mem_cons_of_mem _ hx

theorem registerFileShallow_stOk (st0 : Resolver)
    (R : List FileDescriptor) (st : Resolver) (fd : FileDescriptor)
    (hst : StOk st0 R st) (hfd : fd ∈ R) :
    StOk st0 R (registerFileShallow st fd) := by
  intro kv hkv
  rcases registerFileShallow_files_cases st fd with hc | hc
  · rw [hc] at hkv
    exact hst kv hkv
  · rw [hc] at hkv
    rcases List.mem_append.mp hkv with hm | hm
    · exact hst kv hm
    · have heq := List.mem_singleton.mp hm
      subst heq
      exact Or.inr ⟨hfd, rfl⟩

mutual

theorem registerFileLocked_stOk (st0 : Resolver)
    (R : List FileDescriptor) (st : Resolver) (fd : FileDescriptor)
    (hst : StOk st0 R st) (hsub : ∀ x ∈ reachNP fd, x ∈ R) :
    StOk st0 R (registerFileLocked st fd) := by
  cases fd with
  | mk p ph ms es imps =>
    rw [registerFileLocked]
    refine registerImportsLocked_stOk st0 R _ imps ?_ ?_
    · exact registerFileShallow_stOk st0 R st _ hst
        (hsub _ (self_mem_reachNP _))
    · intro x hx
      exact hsub x (reachNPImports_subset_reachNP (.mk p ph ms es imps) x hx)

theorem registerImportsLocked_stOk (st0 : Resolver)
    (R : List FileDescriptor) (st : Resolver) (l : List FileDescriptor)
    (hst : StOk st0 R st) (hsub : ∀ x ∈ reachNPImports l, x ∈ R) :
    StOk st0 R (registerImportsLocked st l) := by
  cases l with
  | nil =>
    rw [registerImportsLocked]
    exact hst
  | cons i rest =>
    rw [registerImportsLocked]
    have hsubrest : ∀ x ∈ reachNPImports rest, x ∈ R := by
      intro x hx
      apply hsub
      rw [reachNPImports]
      exact List.mem_append.mpr (Or.inr hx)
    by_cases hp : i.placeholder = true
    · simp only [hp, if_true]
      exact registerImportsLocked_stOk st0 R st rest hst hsubrest
    · simp only [hp, if_false]
      refine registerImportsLocked_stOk st0 R _ rest ?_ hsubrest
      refine registerFileLocked_stOk st0 R st i hst ?_
      intro x hx
      apply hsub
      rw [reachNPImports]
      refine List.mem_append.mpr (Or.inl ?_)
      rw [if_neg hp]
      exact hx

end

theorem registerFileShallow_self_ok (st0 : Resolver)
    (R : List FileDescriptor) (st : Resolver) (fd : FileDescriptor)
    (hst : StOk st0 R st) (hfd : fd ∈ R) (hfresh : NamesFresh st0 R)
    (hpair : PairwiseFresh R) :
    (assocFind (registerFileShallow st fd).files fd.path).isSome := by
  by_cases hp : (assocFind st.files fd.path).isSome = true
  · exact registerFileShallow_files_mono st fd fd.path hp
  · have hnc : nameConflict st.files fd = false := by
      by_contra hc
      rw [Bool.not_eq_false] at hc
      unfold nameConflict at hc
      rw [List.any_eq_true] at hc
      obtain ⟨kv, hkv, hkv2⟩ := hc
      rw [List.any_eq_true] at hkv2
      obtain ⟨n, hn, hn2⟩ := hkv2
      replace hn2 : n ∈ declaredNames kv.2 := by simpa using hn2
      rcases hst kv hkv with horig | ⟨hR, hpath⟩
      · exact hfresh fd hfd kv horig n hn hn2
      · by_cases hpp : fd.path = kv.2.path
        · apply hp
          have : (assocFind st.files kv.1).isSome :=
            mem_keys_isSome st.files kv hkv
          rw [hpath, ← hpp] at this
          exact this
        · exact hpair fd hfd kv.2 hR hpp n hn hn2
    unfold registerFileShallow
    rw [Bool.not_eq_true] at hp
    rw [if_neg (by rw [hp, hnc]; simp)]
    exact assocFind_append_self st.files fd.path fd

mutual

theorem registerFileLocked_reach_ok (st0 : Resolver)
    (R : List FileDescriptor) (st : Resolver) (fd : FileDescriptor)
    (g : FileDescriptor) (hst : StOk st0 R st)
    (hsub : ∀ x ∈ reachNP fd, x ∈ R) (hfresh : NamesFresh st0 R)
    (hpair : PairwiseFresh R) (hg : g ∈ reachNP fd) :
    (assocFind (registerFileLocked st fd).files g.path).isSome := by
  cases fd with
  | mk p ph ms es imps =>
    rw [registerFileLocked]
    rw [reachNP] at hg
    rcases List.mem_cons.mp hg with heq | hmem
    · subst heq
      exact registerImportsLocked_files_mono _ imps _
        (registerFileShallow_self_ok st0 R st _ hst
          (hsub _ (self_mem_reachNP _)) hfresh hpair)
    · refine registerImportsLocked_reach_ok st0 R _ imps g ?_ ?_ hfresh
        hpair hmem
      · exact registerFileShallow_stOk st0 R st _ hst
          (hsub _ (self_mem_reachNP _))
      · intro x hx
        exact hsub x
          (reachNPImports_subset_reachNP (.mk p ph ms es imps) x hx)

theorem registerImportsLocked_reach_ok (st0 : Resolver)
    (R : List FileDescriptor) (st : Resolver) (l : List FileDescriptor)
    (g : FileDescriptor) (hst : StOk st0 R st)
    (hsub : ∀ x ∈ reachNPImports l, x ∈ R) (hfresh : NamesFresh st0 R)
    (hpair : PairwiseFresh R) (hg : g ∈ reachNPImports l) :
    (assocFind (registerImportsLocked st l).files g.path).isSome := by
  cases l with
  | nil =>
    rw [reachNPImports] at hg
    exact absurd hg (List.not_mem_nil g)
  | cons i rest =>
    rw [registerImportsLocked]
    rw [reachNPImports] at hg
    have hsubrest : ∀ x ∈ reachNPImports rest, x ∈ R := by
      intro x hx
      apply hsub
      rw [reachNPImports]
      exact List.mem_append.mpr (Or.inr hx)
    rcases List.mem_append.mp hg with hmem | hmem
    · by_cases hp : i.placeholder = true
      · rw [if_pos hp] at hmem
        exact absurd hmem (List.not_mem_nil g)
      · simp only [hp, if_false] at hmem ⊢
        have hsubi : ∀ x ∈ reachNP i, x ∈ R := by
          intro x hx
          apply hsub
          rw [reachNPImports]
          refine List.mem_append.mpr (Or.inl ?_)
          rw [if_neg hp]
          exact hx
        exact registerImportsLocked_files_mono _ rest _
          (registerFileLocked_reach_ok st0 R st i g hst hsubi hfresh
            hpair hmem)
    · by_cases hp : i.placeholder = true
      · simp only [hp, if_true]
        exact registerImportsLocked_reach_ok st0 R st rest g hst hsubrest
          hfresh hpair hmem
      · simp only [hp, if_false]
        have hsubi : ∀ x ∈ reachNP i, x ∈ R := by
          intro x hx
          apply hsub
          rw [reachNPImports]
          refine List.mem_append.mpr (Or.inl ?_)
          rw [if_neg hp]
          exact hx
        refine registerImportsLocked_reach_ok st0 R _ rest g ?_ hsubrest
          hfresh hpair hmem
        exact registerFileLocked_stOk st0 R st i hst hsubi

end

theorem seedMessage_key_mono (m : ExtMap) (name k : String)
    (h : (assocFind m k).isSome) :
    (assocFind (seedMessage m name) k).isSome := by
  unfold seedMessage
  cases hj : extLookupJoined m name with
  | some inner => exact h
  | none => exact assocFind_put_isSome m name k none h

theorem registerExtension_key_mono (m : ExtMap) (e : ExtensionDecl)
    (k : String) (h : (assocFind m k).isSome) :
    (assocFind (registerExtension m e) k).isSome := by
  unfold registerExtension
  cases hj : extLookupJoined m e.fullName with
  | none => exact assocFind_put_isSome m e.message k _ h
  | some inner => exact assocFind_put_isSome m e.fullName k _ h

theorem seedFold_key_mono (msgs : List String) (m : ExtMap) (k : String)
    (h : (assocFind m k).isSome) :
    (assocFind (msgs.foldl seedMessage m) k).isSome := by
  induction msgs generalizing m with
  | nil => exact h
  | cons name rest ih => exact ih _ (seedMessage_key_mono m name k h)

theorem extFold_key_mono (exts : List ExtensionDecl) (m : ExtMap)
    (k : String) (h : (assocFind m k).isSome) :
    (assocFind (exts.foldl registerExtension m) k).isSome := by
  induction exts generalizing m with
  | nil => exact h
  | cons e rest ih => exact ih _ (registerExtension_key_mono m e k h)

theorem registerFileShallow_extMap_mono (st : Resolver)
    (fd : FileDescriptor) (k : String)
    (h : (assocFind st.extMap k).isSome) :
    (assocFind (registerFileShallow st fd).extMap k).isSome := by
  unfold registerFileShallow
  exact extFold_key_mono _ _ k (seedFold_key_mono _ _ k h)

theorem seedMessage_key_self (m : ExtMap) (name : String) :
    (assocFind (seedMessage m name) name).isSome := by
  unfold seedMessage
  cases hj : extLookupJoined m name with
  | some inner =>
    unfold extLookupJoined at hj
    cases hf : assocFind m name with
    | none => rw [hf] at hj; cases hj
    | some v => simp [hf]
  | none =>
    rw [assocFind_put_self m name none]
    rfl

theorem seedFold_key_self (msgs : List String) (m : ExtMap) (name : String)
    (hmem : name ∈ msgs) :
    (assocFind (msgs.foldl seedMessage m) name).isSome := by
  induction msgs generalizing m with
  | nil => exact absurd hmem (List.not_mem_nil name)
  | cons hd rest ih =>
    rcases List.mem_cons.mp hmem with heq | hmem2
    · subst heq
      exact seedFold_key_mono rest _ name (seedMessage_key_self m name)
    · exact ih _ hmem2

theorem registerFileShallow_extMap_self (st : Resolver)
    (fd : FileDescriptor) (name : String)
    (hmem : name ∈ fd.messages.map MessageDecl.fullName) :
    (assocFind (registerFileShallow st fd).extMap name).isSome := by
  unfold registerFileShallow
  exact extFold_key_mono _ _ name (seedFold_key_self _ _ name hmem)

mutual

theorem registerFileLocked_extMap_mono (st : Resolver)
    (fd : FileDescriptor) (k : String)
    (h : (assocFind st.extMap k).isSome) :
    (assocFind (registerFileLocked st fd).extMap k).isSome := by
  cases fd with
  | mk fp ph ms es imps =>
    rw [registerFileLocked]
    exact registerImportsLocked_extMap_mono _ imps k
      (registerFileShallow_extMap_mono st _ k h)

theorem registerImportsLocked_extMap_mono (st : Resolver)
    (l : List FileDescriptor) (k : String)
    (h : (assocFind st.extMap k).isSome) :
    (assocFind (registerImportsLocked st l).extMap k).isSome := by
  cases l with
  | nil => rw [registerImportsLocked]; exact h
  | cons i rest =>
    rw [registerImportsLocked]
    by_cases hp : i.placeholder = true
    · simp only [hp, if_true]
      exact registerImportsLocked_extMap_mono st rest k h
    · simp only [hp, if_false]
      exact registerImportsLocked_extMap_mono _ rest k
        (registerFileLocked_extMap_mono st i k h)

end

theorem registerFileLocked_extMap_self (st : Resolver)
    (fd : FileDescriptor) (name : String)
    (hmem : name ∈ fd.messages.map MessageDecl.fullName) :
    (assocFind (registerFileLocked st fd).extMap name).isSome := by
  cases fd with
  | mk fp ph ms es imps =>
    rw [registerFileLocked]
    exact registerImportsLocked_extMap_mono _ imps name
      (registerFileShallow_extMap_self st _ name hmem)

theorem registerFilesFold_extMap_mono (fds : List FileDescriptor)
    (st : Resolver) (k : String)
    (h : (assocFind st.extMap k).isSome) :
    (assocFind (fds.foldl registerFileLocked st).extMap k).isSome := by
  induction fds generalizing st with
  | nil => exact h
  | cons fd rest ih =>
    exact ih _ (registerFileLocked_extMap_mono st fd k h)

/-- C5 (amended): after `RegisterFiles`, for every top-level message
declared in any file of the registered list, `GetExtensionsByMessage`
returns a list (never NotFound). The list holds the field numbers present
in the registry's extension index for that message — which, because of the
registration defect exhibited by the C4/C5 counterexamples, retains at
most the most recently registered extension per containing message and is
not sorted by the query. Nested messages declared in registered files are
never seeded (the seeding loop walks only the top-level `fd.Messages()`),
so they get NotFound instead of the empty list; see the counterexample. -/
theorem getExtensionsByMessage_known_message_not_notFound (st : Resolver)
    (fds : List FileDescriptor) (f : FileDescriptor) (hf : f ∈ fds)
    (name : String) (hm : name ∈ f.messages.map MessageDecl.fullName) :
    ∃ l, GetExtensionsByMessage (RegisterFiles st fds) name =
      .ok l := by
  have hsome :
      (assocFind (RegisterFiles st fds).extMap name).isSome := by
    unfold RegisterFiles
    revert hf
    induction fds generalizing st with
    | nil =>
      intro hf
      exact absurd hf (List.not_mem_nil f)
    | cons fd rest ih =>
      intro hf
      rcases List.mem_cons.mp hf with heq | hmem
      · subst heq
        exact registerFilesFold_extMap_mono rest _ _
          (registerFileLocked_extMap_self st f name hm)
      · exact ih _ hmem
  unfold GetExtensionsByMessage
  cases hfind : assocFind (RegisterFiles st fds).extMap name with
  | none => rw [hfind] at hsome; simp at hsome
  | some inner => exact ⟨_, rfl⟩

/-- Witness for C5 at the two-extension file: `pkg.M` is a declared
message, so the query returns a list. -/
theorem getExtensionsByMessage_known_message_not_notFound_witness :
    ∃ l, GetExtensionsByMessage resolverExTwoExts "pkg.M" = .ok l :=
  getExtensionsByMessage_known_message_not_notFound emptyResolver
    [fileExTwoExts] fileExTwoExts (List.mem_singleton.mpr rfl) "pkg.M"
    (by
      rw [show fileExTwoExts.messages.map MessageDecl.fullName
        = ["pkg.M"] from rfl]
      exact List.mem_singleton.mpr rfl)

/-! ## C10: a failed upstream is scrubbed and not re-added -/

theorem assocFind_some_mem {α β : Type} [DecidableEq α]
    (m : List (α × β)) (k : α) (v : β) (h : assocFind m k = some v) :
    (k, v) ∈ m := by
  induction m with
  | nil => cases h
  | cons kv rest ih =>
    obtain ⟨k1, v1⟩ := kv
    by_cases hk : k1 = k
    · subst hk
      simp [assocFind] at h
      subst h
      exact List.mem_cons_self _ _
    · simp only [assocFind, if_neg hk] at h
      exact List.mem_cons_of_mem _ (ih h)

theorem mem_assocPut {α β : Type} [DecidableEq α]
    (m : List (α × β)) (k : α) (v : β) (kv' : α × β)
    (h : kv' ∈ assocPut m k v) : kv' = (k, v) ∨ kv' ∈ m := by
  induction m with
  | nil =>
    simp only [assocPut] at h
    exact Or.inl (List.mem_singleton.mp h)
  | cons hd rest ih =>
    obtain ⟨k1, v1⟩ := hd
    by_cases hk : k1 = k
    · subst hk
      simp only [assocPut, if_pos rfl] at h
      rcases List.mem_cons.mp h with heq | hmem
      · exact Or.inl heq
      · exact Or.inr (List.mem_cons_of_mem _ hmem)
    · simp only [assocPut, if_neg hk] at h
      rcases List.mem_cons.mp h with heq | hmem
      · exact Or.inr (heq ▸ List.mem_cons_self _ _)
      · rcases ih hmem with heq2 | hmem2
        · exact Or.inl heq2
        · exact Or.inr (List.mem_cons_of_mem _ hmem2)

theorem addServerToService_preserves (tbl : ServicesTable) (name : String)
    (srv u : UpstreamServer) (hne : srv ≠ u)
    (hP : ∀ n svc, (n, svc) ∈ tbl → u ∉ svc.servers) :
    ∀ n svc, (n, svc) ∈ addServerToService tbl name srv →
      u ∉ svc.servers := by
  intro n svc hmem hu
  unfold addServerToService at hmem
  cases hfind : assocFind tbl name with
  | some svc0 =>
    rw [hfind] at hmem
    rcases mem_assocPut _ _ _ _ hmem with heq | hmem2
    · obtain ⟨hn, hsvc⟩ := Prod.mk.injEq .. ▸ heq
      rw [hsvc] at hu
      rcases List.mem_append.mp hu with hu2 | hu2
      · exact hP name svc0 (assocFind_some_mem tbl name svc0 hfind) hu2
      · exact hne (List.mem_singleton.mp hu2).symm
    · exact hP n svc hmem2 hu
  | none =>
    rw [hfind] at hmem
    rcases List.mem_append.mp hmem with hmem2 | hmem2
    · exact hP n svc hmem2 hu
    · obtain ⟨hn, hsvc⟩ := Prod.mk.injEq .. ▸ List.mem_singleton.mp hmem2
      rw [hsvc] at hu
      exact hne (List.mem_singleton.mp hu).symm

theorem foldAdd_preserves (names : List String) (tbl : ServicesTable)
    (srv u : UpstreamServer) (hne : srv ≠ u)
    (hP : ∀ n svc, (n, svc) ∈ tbl → u ∉ svc.servers) :
    ∀ n svc,
      (n, svc) ∈ names.foldl (fun t2 nm => addServerToService t2 nm srv)
        tbl → u ∉ svc.servers := by
  induction names generalizing tbl with
  | nil => exact hP
  | cons nm rest ih =>
    exact ih _ (addServerToService_preserves tbl nm srv u hne hP)

theorem scrubProvider_establishes (tbl : ServicesTable) (p : String)
    (u : UpstreamServer) (hup : u.provider = p) :
    ∀ n svc, (n, svc) ∈ scrubProvider tbl p → u ∉ svc.servers := by
  intro n svc hmem hu
  unfold scrubProvider at hmem
  rcases List.mem_map.mp hmem with ⟨kv, hkv, heq⟩
  obtain ⟨hn, hsvc⟩ := Prod.mk.injEq .. ▸ heq
  rw [← hsvc] at hu
  have hprov := (List.mem_filter.mp hu).2
  simp [hup] at hprov

/-- C10: if the `ListServices` call for upstream `u` of provider `p` fails
during `UpdateServices(p)` (`outcome u = none`, covering every slot where
`u` appears), then after `UpdateServices` completes `u` is in no service's
server list: the scrub pass removed every provider-`p` server and the
publish pass re-adds only servers with a successful result. -/
theorem updateServices_failed_upstream_not_rerouted (tbl : ServicesTable)
    (p : String) (upstreams : List UpstreamServer)
    (outcome : UpstreamServer → Option (List String))
    (u : UpstreamServer) (hup : u.provider = p)
    (hfail : ∀ v ∈ upstreams, v = u → outcome v = none) :
    ∀ n svc, (n, svc) ∈ UpdateServices tbl p upstreams outcome →
      u ∉ svc.servers := by
  have hres :
      ∀ r ∈ upstreams.map (fun v => (outcome v).map fun ss => (v, ss)),
        ∀ v ss, r = some (v, ss) → v ≠ u := by
    intro r hr v ss hrs hvu
    rcases List.mem_map.mp hr with ⟨w, hw, heqr⟩
    cases ho : outcome w with
    | none =>
      rw [ho] at heqr
      rw [hrs] at heqr
      cases heqr
    | some ss2 =>
      rw [ho] at heqr
      rw [hrs] at heqr
      simp only [Option.map_some', Option.some.injEq] at heqr
      obtain ⟨hv, _⟩ := Prod.mk.injEq .. ▸ heqr.symm
      rw [hfail w hw (hv.symm.trans hvu)] at ho
      cases ho
  have hfold :
      ∀ (results : List (Option (UpstreamServer × List String)))
        (t : ServicesTable),
        (∀ r ∈ results, ∀ v ss, r = some (v, ss) → v ≠ u) →
        (∀ n svc, (n, svc) ∈ t → u ∉ svc.servers) →
        ∀ n svc,
          (n, svc) ∈ results.foldl
            (fun t r =>
              match r with
              | none => t
              | some us =>
                us.2.foldl (fun t2 nm => addServerToService t2 nm us.1) t)
            t → u ∉ svc.servers := by
    intro results
    induction results with
    | nil => exact fun t _ hP => hP
    | cons r rest ih =>
      intro t hres2 hP
      cases r with
      | none =>
        exact ih t (fun r2 hr2 => hres2 r2 (List.mem_cons_of_mem _ hr2)) hP
      | some us =>
        exact ih _ (fun r2 hr2 => hres2 r2 (List.mem_cons_of_mem _ hr2))
          (foldAdd_preserves us.2 t us.1 u
            (hres2 (some us) (List.mem_cons_self _ _) us.1 us.2 rfl) hP)
  exact hfold _ _ hres (scrubProvider_establishes tbl p u hup)

/-- Witness for C10: one upstream whose listing fails; its exclusive
service ends with an empty server list. -/
theorem updateServices_failed_upstream_not_rerouted_witness :
    srvExA ∉ (UpstreamService.mk [] 0).servers :=
  updateServices_failed_upstream_not_rerouted
    [("svc.A", ⟨[srvExA], 0⟩)] "p" [srvExA] (fun _ => none) srvExA rfl
    (fun _ _ _ => rfl) "svc.A" ⟨[], 0⟩ (by decide)

/-! ## C8: ReplaceServers reconciliation -/

theorem assocFind_none_iff {α β : Type} [DecidableEq α]
    (m : List (α × β)) (k : α) :
    assocFind m k = none ↔ k ∉ m.map Prod.fst := by
  induction m with
  | nil => simp [assocFind]
  | cons kv rest ih =>
    obtain ⟨k1, v1⟩ := kv
    by_cases hk : k1 = k
    · subst hk
      simp [assocFind]
    · simp only [assocFind, if_neg hk, List.map_cons, List.mem_cons]
      rw [ih]
      constructor
      · rintro hn (heq | hm)
        · exact hk heq.symm
        · exact hn hm
      · intro hn
        exact fun hm => hn (Or.inr hm)

theorem assocPut_keys_of_present {α β : Type} [DecidableEq α]
    (m : List (α × β)) (k : α) (v : β)
    (h : (assocFind m k).isSome) :
    (assocPut m k v).map Prod.fst = m.map Prod.fst := by
  induction m with
  | nil => simp [assocFind] at h
  | cons kv rest ih =>
    obtain ⟨k1, v1⟩ := kv
    by_cases hk : k1 = k
    · subst hk
      simp [assocPut]
    · simp only [assocFind, if_neg hk] at h
      simp [assocPut, if_neg hk, ih h]

theorem assocPut_keys_nodup {α β : Type} [DecidableEq α]
    (m : List (α × β)) (k : α) (v : β)
    (hnd : (m.map Prod.fst).Nodup) :
    ((assocPut m k v).map Prod.fst).Nodup := by
  cases hp : assocFind m k with
  | some w =>
    rw [assocPut_keys_of_present m k v (by simp [hp])]
    exact hnd
  | none =>
    have hk : k ∉ m.map Prod.fst := (assocFind_none_iff m k).mp hp
    have hkeys : (assocPut m k v).map Prod.fst = m.map Prod.fst ++ [k] := by
      clear hnd
      induction m with
      | nil => simp [assocPut]
      | cons kv rest ih =>
        obtain ⟨k1, v1⟩ := kv
        simp only [assocFind] at hp
        by_cases h1 : k1 = k
        · rw [if_pos h1] at hp
          cases hp
        · rw [if_neg h1] at hp
          simp only [List.map_cons, List.mem_cons, not_or] at hk
          simp [assocPut, if_neg h1, ih hp hk.2]
    rw [hkeys]
    simp only [List.nodup_append, List.nodup_singleton]
    exact ⟨hnd, by simp, by simpa using hk⟩

theorem initFlags_find (cs : List UpstreamConfig) (c : UpstreamConfig) :
    assocFind (initFlags cs) c = if c ∈ cs then some true else none := by
  have go : ∀ (l : List UpstreamConfig) (m : List (UpstreamConfig × Bool)),
      assocFind (l.foldl (fun m c => assocPut m c true) m) c =
        if c ∈ l then some true else assocFind m c := by
    intro l
    induction l with
    | nil => simp
    | cons d rest ih =>
      intro m
      simp only [List.foldl_cons]
      rw [ih]
      by_cases hrest : c ∈ rest
      · simp [hrest]
      · by_cases hd : c = d
        · rw [if_neg hrest, hd, assocFind_put_self,
            if_pos (List.mem_cons_self d rest)]
        · have hnc : c ∉ d :: rest := by
            simp [List.mem_cons, hd, hrest]
          rw [if_neg hrest, assocFind_put_ne m d c true hd, if_neg hnc]
  rw [initFlags, go cs []]
  rfl

theorem initFlags_keys_nodup (cs : List UpstreamConfig) :
    ((initFlags cs).map Prod.fst).Nodup := by
  have go : ∀ (l : List UpstreamConfig) (m : List (UpstreamConfig × Bool)),
      (m.map Prod.fst).Nodup →
        (((l.foldl (fun m c => assocPut m c true) m)).map Prod.fst).Nodup := by
    intro l
    induction l with
    | nil => exact fun m h => h
    | cons d rest ih =>
      intro m hm
      simp only [List.foldl_cons]
      exact ih _ (assocPut_keys_nodup m d true hm)
  exact go cs [] (by simp)

theorem keptServers_eq_filter (old : List UpstreamServer)
    (m : List (UpstreamConfig × Bool)) :
    keptServers old m =
      old.filter (fun s => (assocFind m s.config).isSome) := by
  induction old generalizing m with
  | nil => rfl
  | cons s rest ih =>
    rw [keptServers]
    by_cases h : (assocFind m s.config).isSome = true
    · rw [if_pos h, ih, List.filter_cons, if_pos h]
      congr 1
      apply List.filter_congr
      intro x _
      by_cases hx : x.config = s.config
      · rw [hx, assocFind_put_self]
        simp [h]
      · rw [assocFind_put_ne m s.config x.config false hx]
    · rw [if_neg h, ih, List.filter_cons, if_neg h]

theorem keptFlags_keys (old : List UpstreamServer)
    (m : List (UpstreamConfig × Bool)) :
    (keptFlags old m).map Prod.fst = m.map Prod.fst := by
  induction old generalizing m with
  | nil => rfl
  | cons s rest ih =>
    rw [keptFlags]
    by_cases h : (assocFind m s.config).isSome = true
    · rw [if_pos h, ih, assocPut_keys_of_present m s.config false h]
    · rw [if_neg h, ih]

theorem keptFlags_find (old : List UpstreamServer)
    (m : List (UpstreamConfig × Bool)) (c : UpstreamConfig) :
    assocFind (keptFlags old m) c =
      if (assocFind m c).isSome ∧ ∃ s ∈ old, s.config = c then some false
      else assocFind m c := by
  induction old generalizing m with
  | nil => simp [keptFlags]
  | cons s rest ih =>
    rw [keptFlags]
    by_cases h : (assocFind m s.config).isSome = true
    · rw [if_pos h, ih]
      by_cases hc : s.config = c
      · subst hc
        rw [assocFind_put_self]
        have hl :
            (if (some false : Option Bool).isSome = true ∧
                ∃ s' ∈ rest, s'.config = s.config then
              (some false : Option Bool)
            else some false) = some false := by
          by_cases hrest : ∃ s' ∈ rest, s'.config = s.config
          · rw [if_pos ⟨rfl, hrest⟩]
          · rw [if_neg (fun hh => hrest hh.2)]
        rw [hl, if_pos ⟨h, ⟨s, List.mem_cons_self _ _, rfl⟩⟩]
      · rw [assocFind_put_ne m s.config c false (fun hh => hc hh.symm)]
        have hcond :
            ((assocFind m c).isSome = true ∧
              ∃ s' ∈ rest, s'.config = c) ↔
            ((assocFind m c).isSome = true ∧
              ∃ s' ∈ s :: rest, s'.config = c) := by
          constructor
          · rintro ⟨hi, s', hs', he⟩
            exact ⟨hi, s', List.mem_cons_of_mem _ hs', he⟩
          · rintro ⟨hi, s', hs', he⟩
            rcases List.mem_cons.mp hs' with heq | hm
            · exact absurd (heq ▸ he) hc
            · exact ⟨hi, s', hm, he⟩
        by_cases hx : (assocFind m c).isSome = true ∧
            ∃ s' ∈ rest, s'.config = c
        · rw [if_pos hx, if_pos (hcond.mp hx)]
        · rw [if_neg hx, if_neg (fun hh => hx (hcond.mpr hh))]
    · rw [if_neg h, ih]
      have hcond :
          ((assocFind m c).isSome = true ∧
            ∃ s' ∈ rest, s'.config = c) ↔
          ((assocFind m c).isSome = true ∧
            ∃ s' ∈ s :: rest, s'.config = c) := by
        constructor
        · rintro ⟨hi, s', hs', he⟩
          exact ⟨hi, s', List.mem_cons_of_mem _ hs', he⟩
        · rintro ⟨hi, s', hs', he⟩
          rcases List.mem_cons.mp hs' with heq | hm
          · exfalso
            apply h
            rw [heq] at he
            rw [← he] at hi
            exact hi
          · exact ⟨hi, s', hm, he⟩
      by_cases hx : (assocFind m c).isSome = true ∧
          ∃ s' ∈ rest, s'.config = c
      · rw [if_pos hx, if_pos (hcond.mp hx)]
      · rw [if_neg hx, if_neg (fun hh => hx (hcond.mpr hh))]

theorem buildPass_map_config (p : String)
    (m : List (UpstreamConfig × Bool)) (fid : Nat) :
    (buildPass p m fid).map (fun s => s.config) =
      (m.filter (fun e => e.2)).map Prod.fst := by
  induction m generalizing fid with
  | nil => rfl
  | cons e rest ih =>
    obtain ⟨c, b⟩ := e
    cases b with
    | true => simp [buildPass, List.filter_cons, ih]
    | false => simp [buildPass, List.filter_cons, ih]

theorem buildPass_provider (p : String)
    (m : List (UpstreamConfig × Bool)) (fid : Nat) :
    ∀ s ∈ buildPass p m fid, s.provider = p := by
  induction m generalizing fid with
  | nil =>
    intro s hs
    cases hs
  | cons e rest ih =>
    obtain ⟨c, b⟩ := e
    cases b with
    | true =>
      intro s hs
      rcases List.mem_cons.mp hs with heq | hm
      · rw [heq]
      · exact ih _ s hm
    | false => exact ih _

theorem mem_filterFlag_iff (m : List (UpstreamConfig × Bool))
    (hnd : (m.map Prod.fst).Nodup) (c : UpstreamConfig) :
    c ∈ (m.filter (fun e => e.2)).map Prod.fst ↔
      assocFind m c = some true := by
  induction m with
  | nil => simp [assocFind]
  | cons e rest ih =>
    obtain ⟨k, b⟩ := e
    simp only [List.map_cons, List.nodup_cons] at hnd
    have ihr := ih hnd.2
    by_cases hk : k = c
    · subst hk
      cases b with
      | true => simp [assocFind, List.filter_cons]
      | false =>
        have hpk : k ∉ (rest.filter (fun e => e.2)).map Prod.fst := by
          intro hmem
          exact hnd.1 (((List.filter_sublist rest).map Prod.fst).mem hmem)
        simp [assocFind, List.filter_cons, hpk]
    · have hck : ¬c = k := fun hh => hk hh.symm
      cases b with
      | true =>
        simp only [List.filter_cons]
        simp only [assocFind, if_neg hk]
        simp [List.mem_cons, hck, ihr]
      | false =>
        simp only [List.filter_cons]
        simp only [assocFind, if_neg hk]
        simpa using ihr

/-- C8 (amended): `ReplaceServers` keeps, at the front of the provider's
slot and in their old relative order, exactly the old upstreams whose
config appears in the new config list (the same objects); old upstreams
whose config is absent are removed; after them come exactly the newly
created upstreams — one per distinct new config not previously present —
tagged with the provider name. The order of the new upstreams follows Go
map iteration, not the new-configs order. -/
theorem replaceServers_kept_then_newly_built
    (old : List UpstreamServer) (p : String)
    (cs : List UpstreamConfig) (fresh : Nat) :
    ∃ built : List UpstreamServer,
      ReplaceServers old p cs fresh =
        old.filter (fun s => decide (s.config ∈ cs)) ++ built ∧
      (built.map (fun s => s.config)).Nodup ∧
      (∀ c, c ∈ built.map (fun s => s.config) ↔
        (c ∈ cs ∧ ∀ s ∈ old, s.config ≠ c)) ∧
      ∀ b ∈ built, b.provider = p := by
  have hkeys : (keptFlags old (initFlags cs)).map Prod.fst =
      (initFlags cs).map Prod.fst := keptFlags_keys old (initFlags cs)
  have hnd : ((keptFlags old (initFlags cs)).map Prod.fst).Nodup := by
    rw [hkeys]
    exact initFlags_keys_nodup cs
  refine ⟨buildPass p (keptFlags old (initFlags cs)) fresh, ?_, ?_, ?_, ?_⟩
  · unfold ReplaceServers
    congr 1
    rw [keptServers_eq_filter]
    apply List.filter_congr
    intro s _
    rw [initFlags_find]
    by_cases hmem : s.config ∈ cs <;> simp [hmem]
  · rw [buildPass_map_config]
    exact (((List.filter_sublist _).map Prod.fst).nodup hnd)
  · intro c
    rw [buildPass_map_config, mem_filterFlag_iff _ hnd c, keptFlags_find,
      initFlags_find]
    by_cases hmem : c ∈ cs
    · by_cases hold : ∃ s ∈ old, s.config = c
      · rw [if_pos ⟨by simp [hmem], hold⟩]
        constructor
        · intro hh
          cases hh
        · rintro ⟨_, hno⟩
          obtain ⟨s, hs, he⟩ := hold
          exact absurd he (hno s hs)
      · rw [if_neg (fun hh => hold hh.2), if_pos hmem]
        constructor
        · intro _
          exact ⟨hmem, fun s hs he => hold ⟨s, hs, he⟩⟩
        · intro _
          rfl
    · rw [if_neg hmem]
      have hfalse : ¬((none : Option Bool).isSome = true ∧
          ∃ s ∈ old, s.config = c) := fun hh => by simp at hh
      rw [if_neg hfalse]
      constructor
      · intro hh
        cases hh
      · rintro ⟨hc, _⟩
        exact absurd hc hmem
  · exact buildPass_provider p _ fresh

/-! ## C1: round-robin fairness while the cursor does not wrap -/

theorem runFindServer_outputs (N : Nat) :
    ∀ (tbl : ServicesTable) (name : String)
      (servers : List UpstreamServer) (c : Nat),
      assocFind tbl name = some ⟨servers, c⟩ →
      servers.length ≠ 0 →
      c + N < u32Mod →
      (runFindServer tbl name N).1 =
        (List.range N).map
          (fun i => servers[(c + 1 + i) % servers.length]?) := by
  induction N with
  | zero =>
    intro tbl name servers c _ _ _
    rfl
  | succ n ih =>
    intro tbl name servers c hfind hlen hwrap
    have hc1 : (c + 1) % u32Mod = c + 1 :=
      Nat.mod_eq_of_lt (by omega)
    have hstep : findServer tbl name =
        (servers[(c + 1) % servers.length]?,
          assocPut tbl name ⟨servers, c + 1⟩) := by
      simp only [findServer, hfind, if_neg hlen, hc1]
    have hfind2 :
        assocFind (assocPut tbl name ⟨servers, c + 1⟩) name =
          some ⟨servers, c + 1⟩ := assocFind_put_self tbl name _
    have htail := ih (assocPut tbl name ⟨servers, c + 1⟩) name servers
      (c + 1) hfind2 hlen (by omega)
    simp only [runFindServer, hstep, htail]
    rw [List.range_succ_eq_map, List.map_cons, List.map_map]
    congr 1
    apply List.map_congr_left
    intro i _
    simp only [Function.comp_apply]
    congr 2
    omega

theorem getElem?_eq_some_get_iff (l : List UpstreamServer)
    (hnd : l.Nodup) (m j : Nat) (hm : m < l.length) (hj : j < l.length) :
    l[m]? = some (l.get ⟨j, hj⟩) ↔ m = j := by
  rw [List.getElem?_eq_getElem hm]
  constructor
  · intro h
    have := Option.some.inj h
    have hfin : (⟨m, hm⟩ : Fin l.length) = ⟨j, hj⟩ :=
      (List.Nodup.get_inj_iff hnd).mp this
    exact Fin.mk.inj_iff.mp hfin
  · intro h
    subst h
    rfl

theorem count_index_list (servers : List UpstreamServer)
    (hnd : servers.Nodup) (j : Nat) (hj : j < servers.length)
    (idx : List Nat) (hidx : ∀ m ∈ idx, m < servers.length) :
    (idx.map (fun m => servers[m]?)).count
        (some (servers.get ⟨j, hj⟩)) = idx.count j := by
  induction idx with
  | nil => rfl
  | cons m rest ih =>
    simp only [List.map_cons, List.count_cons]
    rw [ih (fun x hx => hidx x (List.mem_cons_of_mem _ hx))]
    congr 1
    have hm : m < servers.length := hidx m (List.mem_cons_self _ _)
    by_cases hmj : m = j
    · subst hmj
      have h1 : servers[m]? = some (servers.get ⟨m, hm⟩) :=
        List.getElem?_eq_getElem hm
      simp [h1]
    · have h1 : ¬servers[m]? = some (servers.get ⟨j, hj⟩) :=
        fun hh => hmj ((getElem?_eq_some_get_iff servers hnd m j hm hj).mp hh)
      have h2 : ¬some (servers.get ⟨j, hj⟩) = servers[m]? :=
        fun hh => h1 hh.symm
      simp only [List.get_eq_getElem] at h1 h2
      simp [h1, h2, hmj, fun hh => hmj (id (Eq.symm hh) : m = j)]

theorem mod_add_inj (b x y k : Nat) (hx : x < k)
    (hy : y < k) (h : (b + x) % k = (b + y) % k) : x = y := by
  have hm : x ≡ y [MOD k] := Nat.ModEq.add_left_cancel' b h
  calc x = x % k := (Nat.mod_eq_of_lt hx).symm
    _ = y % k := hm
    _ = y := Nat.mod_eq_of_lt hy

theorem mod_shift_eq_iff (a N j k : Nat) (hk : 0 < k) (hj : j < k) :
    (a + N) % k = j ↔ N % k = (j + k - a % k) % k := by
  have hb : a % k < k := Nat.mod_lt a hk
  have hr : (j + k - a % k) % k < k := Nat.mod_lt _ hk
  have hjr : (a % k + (j + k - a % k) % k) % k = j := by
    have hd : k * (a / k) + a % k = a := Nat.div_add_mod a k
    have he : a + (j + k - a % k) = j + k + k * (a / k) := by omega
    rw [Nat.add_mod, Nat.mod_mod_of_dvd _ (dvd_refl k),
      Nat.mod_mod_of_dvd _ (dvd_refl k), ← Nat.add_mod, he,
      Nat.add_mul_mod_self_left, Nat.add_mod_right, Nat.mod_eq_of_lt hj]
  have hsplit : (a + N) % k = (a % k + N % k) % k := Nat.add_mod a N k
  constructor
  · intro h
    have h2 : (a % k + N % k) % k = (a % k + (j + k - a % k) % k) % k := by
      rw [← hsplit, h, hjr]
    exact mod_add_inj (a % k) (N % k) ((j + k - a % k) % k) k
      (Nat.mod_lt N hk) hr h2
  · intro h
    rw [hsplit, h, hjr]

theorem div_step (N k r : Nat) (hk : 0 < k) (hr : r < k) :
    (N + k - r) / k =
      (N + k - 1 - r) / k + (if N % k = r then 1 else 0) := by
  have hs : N % k < k := Nat.mod_lt N hk
  have hN : k * (N / k) + N % k = N := Nat.div_add_mod N k
  have h1 : N + k - r = N % k + k - r + k * (N / k) := by omega
  have h2 : N + k - 1 - r = N % k + k - 1 - r + k * (N / k) := by omega
  have e1 : (N + k - r) / k = (N % k + k - r) / k + N / k := by
    rw [h1, Nat.add_mul_div_left _ _ hk]
  have e2 : (N + k - 1 - r) / k = (N % k + k - 1 - r) / k + N / k := by
    rw [h2, Nat.add_mul_div_left _ _ hk]
  rw [e1, e2]
  rcases Nat.lt_trichotomy (N % k) r with hlt | heq | hgt
  · have d1 : (N % k + k - r) / k = 0 := Nat.div_eq_of_lt (by omega)
    have d2 : (N % k + k - 1 - r) / k = 0 := Nat.div_eq_of_lt (by omega)
    rw [d1, d2, if_neg (by omega)]
    omega
  · have d1 : N % k + k - r = k := by omega
    have d2 : (N % k + k - 1 - r) / k = 0 := Nat.div_eq_of_lt (by omega)
    rw [d1, Nat.div_self hk, d2, if_pos heq]
    omega
  · have d1 : N % k + k - r = (N % k - r) + k := by omega
    have d2 : N % k + k - 1 - r = (N % k - r - 1) + k := by omega
    have d3 : (N % k - r) / k = 0 := Nat.div_eq_of_lt (by omega)
    have d4 : (N % k - r - 1) / k = 0 := Nat.div_eq_of_lt (by omega)
    rw [d1, d2, Nat.add_div_right _ hk, Nat.add_div_right _ hk, d3, d4,
      if_neg (by omega)]
    omega

theorem count_range_mod (a k j : Nat) (hk : 0 < k) (hj : j < k) :
    ∀ N : Nat,
      ((List.range N).map (fun i => (a + i) % k)).count j =
        (N + k - 1 - (j + k - a % k) % k) / k := by
  intro N
  induction N with
  | zero =>
    simp only [List.range_zero, List.map_nil, List.count_nil]
    symm
    apply Nat.div_eq_of_lt
    omega
  | succ n ih =>
    rw [List.range_succ, List.map_append, List.count_append, ih]
    have hr : (j + k - a % k) % k < k := Nat.mod_lt _ hk
    have hsing :
        (([(a + n) % k] : List Nat).count j) =
          if n % k = (j + k - a % k) % k then 1 else 0 := by
      by_cases h : n % k = (j + k - a % k) % k
      · have h2 := (mod_shift_eq_iff a n j k hk hj).mpr h
        simp [h2, h]
      · have h2 : ¬(a + n) % k = j :=
          fun hh => h ((mod_shift_eq_iff a n j k hk hj).mp hh)
        have h3 : ¬j = (a + n) % k := fun hh => h2 hh.symm
        simp [h2, h3, h]
    simp only [List.map_cons, List.map_nil]
    rw [hsing,
      show n + 1 + k - 1 - (j + k - a % k) % k
        = n + k - (j + k - a % k) % k from by omega,
      div_step n k _ hk hr]

/-- C1 (amended): for a service with a stable non-empty duplicate-free
server list, over `N` sequential `findServer` calls during which the
32-bit cursor does not wrap (`c + N < 2^32` for the starting cursor `c`),
every server is returned either `⌊N/k⌋` or `⌈N/k⌉` times, where `k` is the
number of servers. (Across a wrap of the `atomic.Uint32` cursor the bound
fails; see the counterexample.) -/
theorem findServer_roundRobin_fair (tbl : ServicesTable) (name : String)
    (servers : List UpstreamServer) (c N j : Nat)
    (hfind : assocFind tbl name = some ⟨servers, c⟩)
    (hnd : servers.Nodup)
    (hlen : servers.length ≠ 0)
    (hj : j < servers.length)
    (hwrap : c + N < u32Mod) :
    (runFindServer tbl name N).1.count (some (servers.get ⟨j, hj⟩)) =
        N / servers.length ∨
      (runFindServer tbl name N).1.count (some (servers.get ⟨j, hj⟩)) =
        (N + servers.length - 1) / servers.length := by
  have hk : 0 < servers.length := Nat.pos_of_ne_zero hlen
  rw [runFindServer_outputs N tbl name servers c hfind hlen hwrap]
  rw [show (fun i => servers[(c + 1 + i) % servers.length]?) =
      ((fun m => servers[m]?) ∘ (fun i => (c + 1 + i) % servers.length))
    from rfl]
  rw [← List.map_map]
  rw [count_index_list servers hnd j hj _ (by
    intro m hm
    rcases List.mem_map.mp hm with ⟨i, _, hi⟩
    rw [← hi]
    exact Nat.mod_lt _ hk)]
  rw [count_range_mod (c + 1) servers.length j hk hj N]
  have hr : (j + servers.length - (c + 1) % servers.length) %
      servers.length < servers.length := Nat.mod_lt _ hk
  have h1 : N / servers.length ≤
      (N + servers.length - 1 -
        (j + servers.length - (c + 1) % servers.length) %
          servers.length) / servers.length :=
    Nat.div_le_div_right (by omega)
  have h2 : (N + servers.length - 1 -
      (j + servers.length - (c + 1) % servers.length) %
        servers.length) / servers.length ≤
      (N + servers.length - 1) / servers.length :=
    Nat.div_le_div_right (by omega)
  have h3 : (N + servers.length - 1) / servers.length ≤
      N / servers.length + 1 := by
    have hle : (N + servers.length - 1) / servers.length ≤
        (N + servers.length) / servers.length :=
      Nat.div_le_div_right (by omega)
    rw [Nat.add_div_right N hk] at hle
    exact hle
  omega

/-- Witness for C1: three servers, cursor starting at 0, four calls: the
first server is returned either 4/3 = 1 or 2 times (it is in fact 2, the
ceiling). -/
theorem findServer_roundRobin_fair_witness :
    (runFindServer [("svc.X", ⟨[srvExA, srvExB, srvExC], 0⟩)]
        "svc.X" 4).1.count (some srvExA) = 4 / 3 ∨
      (runFindServer [("svc.X", ⟨[srvExA, srvExB, srvExC], 0⟩)]
        "svc.X" 4).1.count (some srvExA) = (4 + 3 - 1) / 3 :=
  findServer_roundRobin_fair
    [("svc.X", ⟨[srvExA, srvExB, srvExC], 0⟩)] "svc.X"
    [srvExA, srvExB, srvExC] 0 4 0 (by decide) (by decide) (by decide)
    (by decide) (by decide)

end Pancake
